import Mathlib

/-!
Verification of the scheduling, charge-tracking and supervisor logic of the
mygrid home battery controller.  The Rust sources are shallowly embedded:
f64 arithmetic is modelled over the rationals, usize and u8 over the natural
numbers (with `checkedSub` where an unchecked usize subtraction can panic),
local date-times over integer minutes, and the 24-hour tariff arrays as total
functions on the naturals.  Fallible paths return Option or Except.
Definitions follow src/charge.rs, src/scheduling.rs, src/worker.rs and
src/manager_nordpool/mod.rs.
-/

namespace MyGrid

/-- Comparison outcomes used by the peak/valley scan in src/charge.rs. -/
inductive Comp where
  | End
  | Larger
  | Smaller
  | Equal
  | NA
deriving DecidableEq, Repr, Fintype

/-- Kind of extremum recorded by the peak/valley scan. -/
inductive ValueType where
  | Peak
  | Valley
  | NA
deriving DecidableEq, Repr, Fintype

/-- A recorded peak or valley together with its SoC value. -/
structure Value where
  value_type : ValueType
  value : ℕ
deriving DecidableEq, Repr

/-- Comparison of the current sample `a` against a neighbour `b`, as written inline in the
loop of `update_stored_charge_cost`: `Larger` when `a > b`, `Smaller` when `a < b`. -/
def cmpN (a b : ℕ) : Comp :=
  if b < a then .Larger else if a < b then .Smaller else .Equal

/-- One step of the `match (left, right, left_memory)` block of `update_stored_charge_cost`
(src/charge.rs lines 207-225), with the arms tested in source order.  Returns the emitted
`cmd` and the new `left_memory`. -/
def pv_step (left right mem : Comp) : ValueType × Comp :=
  if left = .End ∧ right = .Equal then (.NA, .End)
  else if left = .Larger ∧ right = .Equal then (.NA, .Larger)
  else if left = .Smaller ∧ right = .Equal then (.NA, .Smaller)
  else if left = .Equal ∧ right = .Larger ∧ mem = .Smaller then (.NA, .NA)
  else if left = .Equal ∧ right = .Smaller ∧ mem = .Larger then (.NA, .NA)
  else if left = .End ∧ right = .Larger then (.Peak, mem)
  else if left = .Equal ∧ right = .End ∧ mem = .Larger then (.Peak, mem)
  else if left = .Larger ∧ (right = .Larger ∨ right = .End) then (.Peak, mem)
  else if left = .Equal ∧ right = .Larger ∧ (mem = .Larger ∨ mem = .End) then (.Peak, .NA)
  else if left = .End ∧ right = .Smaller then (.Valley, mem)
  else if left = .Equal ∧ right = .End ∧ mem = .Smaller then (.Valley, mem)
  else if left = .Smaller ∧ (right = .Smaller ∨ right = .End) then (.Valley, mem)
  else if left = .Equal ∧ right = .Smaller ∧ (mem = .Smaller ∨ mem = .End) then (.Valley, .NA)
  else (.NA, mem)

/-- Emission of a detected peak or valley (`if cmd != ValueType::NA { push }`). -/
def pv_emit (t : ValueType) (v : ℕ) : List Value :=
  match t with
  | .NA => []
  | t => [⟨t, v⟩]

/-- The peak/valley scan of `update_stored_charge_cost`, processing the current sample `v`
with `leftc` the comparison of `v` against its predecessor (`End` at the head), `mem` the
`left_memory` state, and `l` the remaining samples (used for the right comparison). -/
def pvRun : Comp → Comp → ℕ → List ℕ → List Value
  | mem, leftc, v, [] => pv_emit (pv_step leftc .End mem).1 v
  | mem, leftc, v, w :: rest =>
      let s := pv_step leftc (cmpN v w) mem
      pv_emit s.1 v ++ pvRun s.2 (cmpN w v) w rest

/-- All peaks and valleys of a SoC history, in order of detection. -/
def peaksValleys : List ℕ → List Value
  | [] => []
  | v :: rest => pvRun .NA .End v rest

/-- The tariff-dilution loop of `update_stored_charge_cost` (src/charge.rs lines 239-243):
for every recorded Peak at index `i > 0`, the tariff is scaled by
`peaks_valleys[i-1].value / peaks_valleys[i].value`. -/
def dilute : List Value → ℚ → ℚ
  | [], t => t
  | [_], t => t
  | a :: b :: rest, t =>
      dilute (b :: rest) (if b.value_type = .Peak then a.value * t / b.value else t)

/-- Model of `update_stored_charge_cost` from src/charge.rs: computes the new mean cost of the energy
stored in the battery from the SoC history since the last grid charge.  `f64` arithmetic is
modelled over `ℚ`. -/
def update_stored_charge_cost (soc_history : List ℕ) (charge_tariff_in : ℚ) : ℚ :=
  let pvs := peaksValleys soc_history
  if pvs.any (fun v => v.value ≤ 10) then 0
  else dilute pvs charge_tariff_in

/-- The memory value installed when a plateau is entered from the left with comparison `l`:
`End/Larger/Smaller` overwrite the memory, while `Equal` (and the unreachable `NA`) keep it. -/
def entryMem (l : Comp) (m : Comp) : Comp :=
  match l with
  | .End => .End
  | .Larger => .Larger
  | .Smaller => .Smaller
  | _ => m

/-- Removes every sample equal to its predecessor, the predecessor of the head being `v`.
Used only in proofs: repeated adjacent-duplicate deletion, each step justified by
`pvRun_dup`, reduces a history to this form. -/
def collapseFrom (v : ℕ) : List ℕ → List ℕ
  | [] => []
  | a :: rest => if a = v then collapseFrom v rest else a :: collapseFrom a rest

/-- A SoC history with all plateaus collapsed to single samples. -/
def collapseAll : List ℕ → List ℕ
  | [] => []
  | v :: rest => v :: collapseFrom v rest

/-- Rounding of `f64::round`: half away from zero. -/
def rustRound (q : ℚ) : ℤ :=
  if 0 ≤ q then ⌊q + 1 / 2⌋ else -⌊1 / 2 - q⌋

/-- The `as usize` cast of a nonnegative `f64`: truncation (saturating at 0 for negatives,
as Rust saturates float-to-int casts). -/
def castUsize (q : ℚ) : ℕ := ⌊q⌋.toNat

/-- Checked `usize` subtraction: `none` models the panic of an underflowing `a - b`. -/
def checkedSub (a b : ℕ) : Option ℕ := if b ≤ a then some (a - b) else none

/-- The `Tariffs` struct of src/scheduling.rs.  The `[f64;24]` arrays are modelled as total
functions; all accesses made by the scheduling code are at indices `< 24` whenever
`length ≤ 24`, which holds for every `Tariffs` built by `transform_tariffs`. -/
structure Tariffs where
  buy : ℕ → ℚ
  sell : ℕ → ℚ
  length : ℕ
  offset : ℕ

/-- Block types of src/scheduling.rs. -/
inductive BlockType where
  | Charge
  | Hold
  | Use
deriving DecidableEq, Repr

/-- Block status of src/scheduling.rs. -/
inductive Status where
  | Waiting
  | Started
  | Missed
  | Full (soc : ℕ)
  | Error
deriving DecidableEq, Repr

/-- The `Block` struct of src/scheduling.rs.  `DateTime<Local>` values are modelled as
minutes on an integer timeline. -/
structure Block where
  block_type : BlockType
  start_time : ℤ
  end_time : ℤ
  start_hour : ℕ
  end_hour : ℕ
  size : ℕ
  tariffs : Option Tariffs
  charge_tariff_in : ℚ
  charge_tariff_out : ℚ
  price : ℚ
  charge_in : ℚ
  charge_out : ℚ
  overflow : ℚ
  overflow_price : ℚ
  soc_in : ℕ
  soc_out : ℕ
  status : Status

/-- Model of `Block::get_age`: whole hours (truncated toward zero, as `TimeDelta::num_hours`)
between the block start and `date_time` truncated to the hour. -/
def Block.get_age (b : Block) (date_time : ℤ) : ℤ :=
  ((date_time - date_time % 60) - b.start_time) / 60

/-- Model of `Block::is_active`: the hour-truncated `date_time` lies inside the inclusive
`[start_time, end_time]` bounds. -/
def Block.is_active (b : Block) (date_time : ℤ) : Bool :=
  decide (b.start_time ≤ date_time - date_time % 60 ∧ date_time - date_time % 60 ≤ b.end_time)

/-- Model of `Block::is_charge`: a Charge block that has been started. -/
def Block.is_charge (b : Block) : Bool :=
  decide (b.block_type = .Charge ∧ b.status = .Started)

/-- The `Blocks` search-state struct of src/scheduling.rs. -/
structure Blocks where
  schedule_id : ℕ
  blocks : List Block
  next_start : ℕ
  next_charge_in : ℚ
  next_charge_tariff_in : ℚ
  next_soc_in : ℕ
  total_price : ℚ

/-- The `Schedule` struct of src/scheduling.rs (configuration, tariffs and current blocks). -/
structure Schedule where
  date_time : ℤ
  blocks : List Block
  tariffs : Tariffs
  bat_capacity : ℚ
  bat_kwh : ℚ
  soc_kwh : ℚ
  charge_kwh_hour : ℚ
  charge_efficiency : ℚ
  discharge_efficiency : ℚ
  sell_priority : ℚ

/-- Truncation `date_time.duration_trunc(TimeDelta::days(1))`: truncation to midnight (minutes). -/
def Schedule.day_trunc (s : Schedule) : ℤ := s.date_time - s.date_time % 1440

/-- The expression `10 + (charge / soc_kwh).round().min(90.0) as usize` as used for `soc_in`/`soc_out`. -/
def Schedule.soc_of (s : Schedule) (charge : ℚ) : ℕ :=
  10 + (min (rustRound (charge / s.soc_kwh)) 90).toNat

/-- Model of `Schedule::correct_overflow`: splits a charge into what fits in the battery and overflow. -/
def Schedule.correct_overflow (s : Schedule) (charge : ℚ) : ℚ × ℚ :=
  (min charge s.bat_kwh, max (charge - s.bat_kwh) 0)

/-- Model of `Schedule::update_for_pv`: walks hours `start..end` (half-open) accumulating charge,
overflow and overflow revenue, then blends free PV into the mean tariff.  The result is
`(charge_out, charge_tariff_out, overflow, overflow_price)`.  As in the source, overflow in
the `i`-th covered hour is priced with `sell[i]` (index relative to the slice start). -/
def Schedule.update_for_pv (s : Schedule) (block_type : BlockType) (start end_ : ℕ)
    (net_prod : ℕ → ℚ) (charge_in charge_tariff_in : ℚ) : ℚ × ℚ × ℚ × ℚ :=
  let hold_level : ℚ := if block_type = .Hold then charge_in else 0
  let r := (List.range (end_ - start)).foldl
    (fun (acc : ℚ × ℚ × ℚ × ℚ) (i : ℕ) =>
      let np := net_prod (start + i)
      let efficiency_adjusted := if np < 0 then np / s.discharge_efficiency else np
      let co := s.correct_overflow (max (acc.1 + efficiency_adjusted) hold_level)
      (co.1, acc.2.1 + co.2, acc.2.2.1 + s.tariffs.sell i * co.2, min acc.2.2.2 co.1))
    (charge_in, 0, 0, charge_in)
  let charge_tariff_out :=
    if charge_in < r.1 then charge_in / r.1 * charge_tariff_in else charge_tariff_in
  let charge_tariff_out := if r.2.2.2 = 0 then 0 else charge_tariff_out
  (r.1, charge_tariff_out, r.2.1, r.2.2.1)

/-- Model of `Schedule::charge_cost_charge_end`: cost and end hour of charging `charge` kWh from
`start`.  The buy-price slice is modelled over `List.range (end - start)`; in the source a
`start` beyond `length` would panic on the slice, which never happens for the `start`
values produced by the search loops. -/
def Schedule.charge_cost_charge_end (s : Schedule) (start : ℕ) (charge : ℚ)
    (tariffs : Option Tariffs) : ℚ × ℕ :=
  let use_tariffs := tariffs.getD s.tariffs
  let count := castUsize (charge / s.charge_kwh_hour)
  let rem := charge - s.charge_kwh_hour * (count : ℚ)
  let hourly_charge := List.replicate count s.charge_kwh_hour
    ++ (if rustRound (rem * 10) ≠ 0 then [rem] else [])
  let end_ := min (start + hourly_charge.length) use_tariffs.length
  let c_price := ((List.range (end_ - start)).map
    (fun i => hourly_charge.getD i 0 * use_tariffs.buy (start + i))).sum
  (c_price, end_)

/-- Model of `Schedule::get_charge_block`. -/
def Schedule.get_charge_block (s : Schedule) (start size : ℕ)
    (charge_in charge_tariff_in charge_out charge_tariff_out price : ℚ) : Block where
  block_type := .Charge
  start_time := s.day_trunc
  end_time := s.day_trunc
  start_hour := start
  end_hour := 0
  size := size
  tariffs := some s.tariffs
  charge_tariff_in := charge_tariff_in
  charge_tariff_out := charge_tariff_out
  price := price
  charge_in := charge_in
  charge_out := charge_out
  overflow := 0
  overflow_price := 0
  soc_in := s.soc_of charge_in
  soc_out := s.soc_of charge_out
  status := .Waiting

/-- Model of `Schedule::seek_charge`: a leading Hold from `initial_start` to `start`, then a Charge
block targeting `soc_level`. -/
def Schedule.seek_charge (s : Schedule) (initial_start start soc_level : ℕ)
    (net_prod : ℕ → ℚ) (charge_in charge_tariff_in : ℚ) : Blocks :=
  let u := s.update_for_pv .Hold initial_start start net_prod charge_in charge_tariff_in
  let hold : Block :=
    { block_type := .Hold
      start_time := s.day_trunc
      end_time := s.day_trunc
      start_hour := initial_start
      end_hour := 0
      size := start - initial_start
      tariffs := none
      charge_tariff_in := charge_tariff_in
      charge_tariff_out := u.2.1
      price := 0
      charge_in := charge_in
      charge_out := u.1
      overflow := u.2.2.1
      overflow_price := u.2.2.2
      soc_in := s.soc_of charge_in
      soc_out := s.soc_of u.1
      status := .Waiting }
  let need := (soc_level * s.soc_kwh - u.1) / s.charge_efficiency
  let charge : Block :=
    if 0 < need then
      let ce := s.charge_cost_charge_end start need none
      let c_this_mean := ce.1 / need
      let c_mean := need / (need + u.1) * c_this_mean + u.1 / (need + u.1) * u.2.1
      s.get_charge_block start (ce.2 - start) u.1 u.2.1 (u.1 + need) c_mean ce.1
    else
      s.get_charge_block start 0 u.1 u.2.1 u.1 u.2.1 0
  { schedule_id := 0
    next_start := charge.start_hour + charge.size
    next_charge_in := charge.charge_out
    next_charge_tariff_in := charge.charge_tariff_out
    next_soc_in := charge.soc_out
    total_price := hold.price + hold.overflow_price - charge.price
    blocks := [hold, charge] }

/-- Model of `Schedule::get_use_blocks`: packages the hold block and the found Use block. -/
def Schedule.get_use_blocks (s : Schedule) (schedule_id u_start u_end : ℕ)
    (charge_out charge_tariff_out overflow overflow_price : ℚ) (hold : Block)
    (net_prod : ℕ → ℚ) : Blocks :=
  let u_price := ((List.range (u_end - u_start)).map
    (fun i => |min (net_prod (u_start + i)) 0| * s.tariffs.buy (u_start + i))).sum
  let usage : Block :=
    { block_type := .Use
      start_time := s.day_trunc
      end_time := s.day_trunc
      start_hour := u_start
      end_hour := 0
      size := u_end - u_start
      tariffs := none
      charge_tariff_in := hold.charge_tariff_out
      charge_tariff_out := charge_tariff_out
      price := u_price
      charge_in := hold.charge_out
      charge_out := charge_out
      overflow := overflow
      overflow_price := overflow_price
      soc_in := hold.soc_out
      soc_out := s.soc_of charge_out
      status := .Waiting }
  { schedule_id := schedule_id
    next_start := usage.start_hour + usage.size
    next_charge_in := usage.charge_out
    next_charge_tariff_in := usage.charge_tariff_out
    next_soc_in := usage.soc_out
    total_price := hold.price + hold.overflow_price + usage.price + usage.overflow_price
    blocks := [hold, usage] }

/-- The `for u_end in u_start..=length` loop of `Schedule::seek_use`.  `fuel` bounds the
recursion; the supplied fuel always outlasts the loop, which exits by the
`u_end > length - 1` test.  The state is `(charge_out, charge_tariff_out, overflow,
overflow_price)`.  A `none` result models `break` (continue with the next `u_start`). -/
def Schedule.use_scan (s : Schedule) (sid u_start : ℕ) (net_prod : ℕ → ℚ) (hold : Block)
    (hold_co hold_cto : ℚ) : ℕ → ℕ → ℚ × ℚ × ℚ × ℚ → Option Blocks
  | 0, _, _ => none
  | fuel + 1, u_end, st =>
      if s.tariffs.length - 1 < u_end ∨ s.tariffs.buy u_end ≤ st.2.1 then
        if u_end ≠ u_start then
          some (s.get_use_blocks sid u_start u_end st.1 st.2.1 st.2.2.1 st.2.2.2 hold net_prod)
        else none
      else
        let st' := s.update_for_pv .Use u_start (u_end + 1) net_prod hold_co hold_cto
        if rustRound st'.1 = 0 then
          if u_end ≠ u_start then
            some (s.get_use_blocks sid u_start (u_end + 1) st'.1 st'.2.1 st'.2.2.1 st'.2.2.2 hold net_prod)
          else none
        else
          s.use_scan sid u_start net_prod hold hold_co hold_cto fuel (u_end + 1) st'

/-- The `for u_start in seek_start..length` loop of `Schedule::seek_use`: the first
`u_start` whose inner scan returns a `Blocks` wins. -/
def Schedule.seek_use_starts (s : Schedule) (sid initial_start : ℕ) (net_prod : ℕ → ℚ)
    (charge_in charge_tariff_in : ℚ) : List ℕ → Option Blocks
  | [] => none
  | u_start :: rest =>
      let u := s.update_for_pv .Hold initial_start u_start net_prod charge_in charge_tariff_in
      let hold : Block :=
        { block_type := .Hold
          start_time := s.day_trunc
          end_time := s.day_trunc
          start_hour := initial_start
          end_hour := 0
          size := u_start - initial_start
          tariffs := none
          charge_tariff_in := charge_tariff_in
          charge_tariff_out := u.2.1
          price := 0
          charge_in := charge_in
          charge_out := u.1
          overflow := u.2.2.1
          overflow_price := u.2.2.2
          soc_in := s.soc_of charge_in
          soc_out := s.soc_of u.1
          status := .Waiting }
      match s.use_scan sid u_start net_prod hold u.1 u.2.1 (s.tariffs.length + 2 - u_start)
          u_start (u.1, u.2.1, u.2.2.1, u.2.2.2) with
      | some bl => some bl
      | none => s.seek_use_starts sid initial_start net_prod charge_in charge_tariff_in rest

/-- Model of `Schedule::seek_use`. -/
def Schedule.seek_use (s : Schedule) (sid initial_start seek_start : ℕ) (net_prod : ℕ → ℚ)
    (charge_in charge_tariff_in : ℚ) : Option Blocks :=
  s.seek_use_starts sid initial_start net_prod charge_in charge_tariff_in
    (List.range' seek_start (s.tariffs.length - seek_start))

/-- Model of `Schedule::create_base_blocks`: the all-Use backstop covering the whole horizon. -/
def Schedule.create_base_blocks (s : Schedule) (schedule_id : ℕ)
    (charge_in charge_tariff_in : ℚ) (net_prod : ℕ → ℚ) : Blocks :=
  let u := s.update_for_pv .Use 0 s.tariffs.length net_prod charge_in charge_tariff_in
  let block : Block :=
    { block_type := .Use
      start_time := s.day_trunc
      end_time := s.day_trunc
      start_hour := 0
      end_hour := s.tariffs.length - 1
      size := s.tariffs.length
      tariffs := none
      charge_tariff_in := charge_tariff_in
      charge_tariff_out := u.2.1
      price := 0
      charge_in := charge_in
      charge_out := u.1
      overflow := u.2.2.1
      overflow_price := 0
      soc_in := s.soc_of charge_in
      soc_out := s.soc_of u.1
      status := .Waiting }
  { schedule_id := schedule_id
    next_start := s.tariffs.length
    next_charge_in := block.charge_out
    next_charge_tariff_in := block.charge_tariff_out
    next_soc_in := block.soc_out
    total_price := block.price
    blocks := [block] }

/-- Model of `Schedule::trim_and_tail`: drop zero-size blocks and fill the tail with a Hold. -/
def Schedule.trim_and_tail (s : Schedule) (bl : Blocks) (net_prod : ℕ → ℚ) : Blocks :=
  let trimmed := bl.blocks.filter (fun b => decide (0 < b.size))
  let u := s.update_for_pv .Hold bl.next_start s.tariffs.length net_prod
    bl.next_charge_in bl.next_charge_tariff_in
  if bl.next_start < s.tariffs.length then
    { bl with
      blocks := trimmed ++
        [{ block_type := .Hold
           start_time := s.day_trunc
           end_time := s.day_trunc
           start_hour := bl.next_start
           end_hour := 0
           size := s.tariffs.length - bl.next_start
           tariffs := none
           charge_tariff_in := bl.next_charge_tariff_in
           charge_tariff_out := u.2.1
           price := 0
           charge_in := bl.next_charge_in
           charge_out := u.1
           overflow := u.2.2.1
           overflow_price := 0
           soc_in := bl.next_soc_in
           soc_out := s.soc_of u.1
           status := .Waiting }]
      next_start := s.tariffs.length
      next_charge_in := u.1
      next_charge_tariff_in := u.2.1
      next_soc_in := s.soc_of u.1 }
  else
    { bl with blocks := trimmed }

/-- The record of best `Blocks` per level: level 0 is the always-present base, levels 1
and 2 the best one-pair and two-pair plans (`HashMap<usize, Blocks>` in the source). -/
structure SeekRecord where
  level0 : Blocks
  level1 : Option Blocks
  level2 : Option Blocks

/-- Model of `Schedule::record_best` for levels 1 and 2. -/
def Schedule.record_best (s : Schedule) (level : ℕ) (bl : Blocks) (net_prod : ℕ → ℚ)
    (record : SeekRecord) : SeekRecord :=
  if level = 1 then
    match record.level1 with
    | some rb =>
        if rb.total_price < bl.total_price then
          { record with level1 := some (s.trim_and_tail bl net_prod) }
        else record
    | none => { record with level1 := some (s.trim_and_tail bl net_prod) }
  else if level = 2 then
    match record.level2 with
    | some rb =>
        if rb.total_price < bl.total_price then
          { record with level2 := some (s.trim_and_tail bl net_prod) }
        else record
    | none => { record with level2 := some (s.trim_and_tail bl net_prod) }
  else record

/-- Model of `combine_blocks` of src/scheduling.rs. -/
def combine_blocks (blocks_one blocks_two : Blocks) : Blocks :=
  { schedule_id := blocks_two.schedule_id
    blocks := blocks_one.blocks ++ blocks_two.blocks
    next_start := blocks_two.next_start
    next_charge_in := blocks_two.next_charge_in
    next_charge_tariff_in := blocks_two.next_charge_tariff_in
    next_soc_in := blocks_two.next_soc_in
    total_price := blocks_one.total_price + blocks_two.total_price }

/-- Model of `get_best` of src/scheduling.rs: pick the recorded plan with the strictly highest
total price (starting from `-10000`) and materialize `end_hour = start_hour + size - 1`.
The source iterates `HashMap` keys in unspecified order; levels are compared here in the
order 0, 1, 2, which only matters on exact ties between levels. -/
def get_best (record : SeekRecord) : Blocks :=
  let pick := fun (best : ℚ × Blocks) (cand : Option Blocks) =>
    match cand with
    | some bl => if best.1 < bl.total_price then (bl.total_price, bl) else best
    | none => best
  let r := pick (pick (pick ((-10000 : ℚ), record.level0) (some record.level0))
    record.level1) record.level2
  { r.2 with blocks := r.2.blocks.map (fun b => { b with end_hour := b.start_hour + b.size - 1 }) }

/-- The `for seek_second_use in ...` loop body of `Schedule::seek_best`. -/
def Schedule.second_use_fold (s : Schedule) (np : ℕ → ℚ) (sid : ℕ)
    (first_combined second_charge_blocks : Blocks) (rec : SeekRecord) : SeekRecord :=
  (List.range' second_charge_blocks.next_start
      (s.tariffs.length - second_charge_blocks.next_start)).foldl
    (fun rec seek_second_use =>
      match s.seek_use sid second_charge_blocks.next_start seek_second_use np
          second_charge_blocks.next_charge_in second_charge_blocks.next_charge_tariff_in with
      | some second_use_blocks =>
          s.record_best 2
            (combine_blocks first_combined (combine_blocks second_charge_blocks second_use_blocks))
            np rec
      | none => rec) rec

/-- The second-level `for seek_second_charge / charge_level_second` loops of
`Schedule::seek_best`; the state is `(schedule_id, record)`. -/
def Schedule.second_level (s : Schedule) (np : ℕ → ℚ) (first_combined : Blocks)
    (st : ℕ × SeekRecord) : ℕ × SeekRecord :=
  (List.range' first_combined.next_start (s.tariffs.length - first_combined.next_start)).foldl
    (fun st seek_second_charge =>
      (List.range 91).foldl
        (fun (st : ℕ × SeekRecord) charge_level_second =>
          let sid := st.1 + 1
          let second_charge_blocks := s.seek_charge first_combined.next_start
            seek_second_charge charge_level_second np
            first_combined.next_charge_in first_combined.next_charge_tariff_in
          (sid, s.second_use_fold np sid first_combined second_charge_blocks st.2)) st) st

/-- The `for seek_first_use in ...` loop of `Schedule::seek_best` (with the second-level
search nested inside its body). -/
def Schedule.first_use_fold (s : Schedule) (np : ℕ → ℚ) (first_charge_blocks : Blocks)
    (st : ℕ × SeekRecord) : ℕ × SeekRecord :=
  (List.range' first_charge_blocks.next_start
      (s.tariffs.length - first_charge_blocks.next_start)).foldl
    (fun (st : ℕ × SeekRecord) seek_first_use =>
      match s.seek_use st.1 first_charge_blocks.next_start seek_first_use np
          first_charge_blocks.next_charge_in first_charge_blocks.next_charge_tariff_in with
      | some first_use_blocks =>
          let first_combined := combine_blocks first_charge_blocks first_use_blocks
          s.second_level np first_combined (st.1, s.record_best 1 first_combined np st.2)
      | none => st) st

/-- Model of `Schedule::seek_best`: the nested enumeration of up to two (Charge, Use) pairs,
recording the best plan per level and returning the overall best.  The mutable
`schedule_id` counter is threaded through the folds as the first state component. -/
def Schedule.seek_best (s : Schedule) (net_prod : ℕ → ℚ)
    (charge_in charge_tariff_in : ℚ) : Blocks :=
  let record0 : SeekRecord := ⟨s.create_base_blocks 0 charge_in charge_tariff_in net_prod, none, none⟩
  let final := (List.range s.tariffs.length).foldl
    (fun (st : ℕ × SeekRecord) seek_first_charge =>
      (List.range 91).foldl
        (fun (st : ℕ × SeekRecord) charge_level_first =>
          let sid := st.1 + 1
          let first_charge_blocks := s.seek_charge 0 seek_first_charge charge_level_first
            net_prod charge_in charge_tariff_in
          s.first_use_fold net_prod first_charge_blocks (sid, st.2)) st) (0, record0)
  get_best final.2

def s1 : Schedule :=
  { date_time := 0
    blocks := []
    tariffs := { buy := fun i => if i = 0 then 2/5 else 5, sell := fun _ => 0, length := 2, offset := 0 }
    bat_capacity := 100
    bat_kwh := 13/25
    soc_kwh := 1/100
    charge_kwh_hour := 100
    charge_efficiency := 1
    discharge_efficiency := 1
    sell_priority := 1 }

def np1 : ℕ → ℚ := fun i => if i = 0 then 1/10 else if i = 1 then -(1/25) else 0

/-- State-changing inverter calls issued by the supervisor (src/worker.rs).  Reads
(`get_current_soc`) are not state-changing and are not traced. -/
inductive FoxCall where
  | disable_charge_schedule
  | set_min_soc_on_grid (v : ℕ)
  | set_max_soc (v : ℕ)
  | set_battery_charging_time_schedule (enabled : Bool) (sh sm eh em : ℕ)
deriving DecidableEq, Repr

/-- Model of `set_charge` of src/worker.rs: `manual_debug` is the result of `is_manual_debug()`
(the debug-mode or manual-day flag), `soc` the SoC the inverter would report.  Returns the
block status together with the state-changing calls issued.  `as u8` casts wrap mod 256. -/
def set_charge (manual_debug : Bool) (soc : ℕ) (block : Block) : Status × List FoxCall :=
  if manual_debug then (.Started, [])
  else if block.soc_out % 256 ≤ soc then
    (.Full soc, [.disable_charge_schedule, .set_min_soc_on_grid (block.soc_out % 256),
      .set_max_soc 100])
  else
    (.Started, [.set_max_soc (block.soc_out % 256),
      .set_battery_charging_time_schedule true (block.start_hour % 256) 0 (block.end_hour % 256) 59])

/-- Model of `set_full_if_done` of src/worker.rs. -/
def set_full_if_done (manual_debug : Bool) (soc max_soc : ℕ) : Option Status × List FoxCall :=
  if max_soc ≤ soc then
    if manual_debug then (some (.Full soc), [])
    else
      (some (.Full soc), [.disable_charge_schedule,
        .set_min_soc_on_grid (min (max max_soc 10) 100), .set_max_soc 100])
  else (none, [])

/-- Model of `set_hold` of src/worker.rs: `min_soc = max_min_soc.min(soc).max(10).min(100)`. -/
def set_hold (manual_debug : Bool) (soc max_min_soc : ℕ) : Status × List FoxCall :=
  if manual_debug then (.Started, [])
  else
    (.Started, [.disable_charge_schedule,
      .set_min_soc_on_grid (min (max (min max_min_soc soc) 10) 100), .set_max_soc 100])

/-- Model of `set_use` of src/worker.rs. -/
def set_use (manual_debug : Bool) : Status × List FoxCall :=
  if manual_debug then (.Started, [])
  else (.Started, [.disable_charge_schedule, .set_min_soc_on_grid 10, .set_max_soc 100])

/-- Model of `is_update_time` of src/worker.rs. -/
def is_update_time (active_block : Option Block) (date_time : ℤ) : Bool :=
  if ¬ (active_block.any (fun b => b.is_active date_time)) = true then true
  else if active_block.any (fun b => !b.is_charge && decide (4 ≤ b.get_age date_time)) then true
  else false

/-- One output entry of the NordPool tariff client ({valid_time, price, buy, sell}). -/
structure TariffValues where
  valid_time : ℤ
  price : ℚ
  buy : ℚ
  sell : ℚ
deriving DecidableEq, Repr

/-- One `multiAreaEntries` element of the NordPool response: the SE4 spot price and the
delivery start time. -/
structure MultiAreaEntry where
  se4 : ℚ
  delivery_start : ℤ
deriving DecidableEq, Repr

/-- Errors of the NordPool client; `NoContent` is raised on HTTP 204. -/
inductive NordPoolError where
  | NoContent
  | Other
deriving DecidableEq, Repr

/-- A price-service answer for one requested day: HTTP 204, or a parsed body. -/
inductive NPResponse where
  | noContent
  | body (entries : List MultiAreaEntry)
deriving DecidableEq, Repr

/-- Model of `round_to_two_decimals` of src/manager_nordpool/mod.rs. -/
def round_to_two_decimals (price : ℚ) : ℚ := (rustRound (price * 100) : ℚ) / 100

/-- Model of `add_vat_markup` of src/manager_nordpool/mod.rs (constants from the source; `f64`
modelled over `ℚ`). -/
def add_vat_markup (tariff : ℚ) (delivery_start : ℤ) : TariffValues :=
  let price := tariff / 1000
  let buy := 0.31625 + (0.077 * price) / 0.8 + 0.54875 + (price + 0.024 + 0.07696) / 0.8
  let sell := 0.075 + price
  { valid_time := delivery_start - delivery_start % 60
    price := round_to_two_decimals price
    buy := round_to_two_decimals buy
    sell := round_to_two_decimals sell }

/-- Model of `NordPool::tariffs_to_vec`: errors unless the day has exactly 24 entries. -/
def tariffs_to_vec (entries : List MultiAreaEntry) : Except NordPoolError (List TariffValues) :=
  if entries.length ≠ 24 then .error .Other
  else .ok (entries.map (fun t => add_vat_markup t.se4 t.delivery_start))

/-- Model of `NordPool::get_day_tariffs` as a function of the service answer for the day:
HTTP 204 yields `Err(NordPoolError::NoContent)`. -/
def get_day_tariffs (r : NPResponse) : Except NordPoolError (List TariffValues) :=
  match r with
  | .noContent => .error .NoContent
  | .body entries => tariffs_to_vec entries

/-- Model of `NordPool::get_tariffs` as a function of the answers for the requested day and the
next day: the requested day's error propagates, the next day's error is swallowed. -/
def get_tariffs (r1 r2 : NPResponse) : Except NordPoolError (List TariffValues) :=
  match get_day_tariffs r1 with
  | .error e => .error e
  | .ok result =>
      match get_day_tariffs r2 with
      | .ok next_day => .ok (result ++ next_day)
      | .error _ => .ok result

def example_block : Block :=
  { block_type := .Charge
    start_time := 0
    end_time := 0
    start_hour := 2
    end_hour := 4
    size := 3
    tariffs := none
    charge_tariff_in := 0
    charge_tariff_out := 0
    price := 0
    charge_in := 0
    charge_out := 0
    overflow := 0
    overflow_price := 0
    soc_in := 10
    soc_out := 85
    status := .Waiting }

/-- Model of `Schedule::update_block` (src/scheduling.rs lines 736-753).  The unchecked `usize`
subtractions of the source are modelled by `checkedSub`, and the `unwrap` of
`block.tariffs` by an `Option` bind: a `none` result models a panic.  For a Charge block
reaching `Full(soc)`, `charge_tariff_out` is recomputed as the weighted mean of the
residual and the actually purchased energy, and `soc_out`/`charge_out` follow the
observed SoC. -/
def Schedule.update_block (s : Schedule) (block : Block) (status : Status) : Option Block :=
  match block.block_type, status with
  | .Charge, .Full soc =>
      let upd : Option Block :=
        if block.soc_in < soc then do
          let tf ← block.tariffs
          let start ← checkedSub block.start_hour tf.offset
          let charge_in_bat : ℚ := ((soc - block.soc_in : ℕ) : ℚ) * s.soc_kwh
          let ce := s.charge_cost_charge_end start (charge_in_bat / s.charge_efficiency) (some tf)
          let charge_tariff := ce.1 / charge_in_bat
          let si ← checkedSub block.soc_in 10
          let sden ← checkedSub soc 10
          pure { block with charge_tariff_out :=
            ((si : ℚ) * block.charge_tariff_in + ((soc - block.soc_in : ℕ) : ℚ) * charge_tariff)
              / (sden : ℚ) }
        else pure { block with charge_tariff_out := block.charge_tariff_in }
      match upd with
      | none => none
      | some b => do
          let so ← checkedSub soc 10
          pure { b with soc_out := soc, charge_out := (so : ℚ) * s.soc_kwh, status := status }
  | _, _ => some { block with status := status }

def c9_tariffs : Tariffs := { buy := fun _ => 1, sell := fun _ => 0, length := 24, offset := 0 }

/-- A Charge block whose `soc_in` is below 10, as the inverter can report after deep
discharge; `tariffs` present and `start_hour ≥ offset`. -/
def c9_block : Block :=
  { block_type := .Charge
    start_time := 0
    end_time := 0
    start_hour := 3
    end_hour := 5
    size := 3
    tariffs := some c9_tariffs
    charge_tariff_in := 1
    charge_tariff_out := 1
    price := 0
    charge_in := 0
    charge_out := 0
    overflow := 0
    overflow_price := 0
    soc_in := 5
    soc_out := 40
    status := .Started }

def c9_schedule : Schedule :=
  { date_time := 0
    blocks := []
    tariffs := c9_tariffs
    bat_capacity := 10
    bat_kwh := 10
    soc_kwh := 1/10
    charge_kwh_hour := 3
    charge_efficiency := 1
    discharge_efficiency := 1
    sell_priority := 1 }

def c9_block_ok : Block := { c9_block with soc_in := 20 }

/-- The mean buy tariff over a block's (inclusive) `start_hour..end_hour` range, in the
hour indexing of the tariff arrays. -/
def Schedule.mean_buy_tariff (s : Schedule) (b : Block) : ℚ :=
  (((List.range (b.end_hour + 1 - b.start_hour)).map
      (fun i => s.tariffs.buy (b.start_hour + i))).sum) / ((b.end_hour + 1 - b.start_hour : ℕ) : ℚ)

def s2 : Schedule :=
  { date_time := 0
    blocks := []
    tariffs := { buy := fun _ => 0, sell := fun _ => 0, length := 1, offset := 0 }
    bat_capacity := 1
    bat_kwh := 1
    soc_kwh := 1
    charge_kwh_hour := 1
    charge_efficiency := 1
    discharge_efficiency := 1
    sell_priority := 1 }

def s3 : Schedule :=
  { date_time := 0
    blocks := []
    tariffs := { buy := fun _ => 5, sell := fun _ => 0, length := 1, offset := 0 }
    bat_capacity := 1
    bat_kwh := 1
    soc_kwh := 1
    charge_kwh_hour := 1
    charge_efficiency := 1
    discharge_efficiency := 1
    sell_priority := 1 }

/-- The single all-Use baseline block that `seek_best` returns on the trivial input `s2`. -/
def s2_base_block : Block :=
  { block_type := .Use
    start_time := 0
    end_time := 0
    start_hour := 0
    end_hour := 0
    size := 1
    tariffs := none
    charge_tariff_in := 0
    charge_tariff_out := 0
    price := 0
    charge_in := 0
    charge_out := 0
    overflow := 0
    overflow_price := 0
    soc_in := 10
    soc_out := 10
    status := .Waiting }

def s3_hold_block : Block :=
  { block_type := .Hold
    start_time := 0
    end_time := 0
    start_hour := 0
    end_hour := 0
    size := 0
    tariffs := none
    charge_tariff_in := 0
    charge_tariff_out := 0
    price := 0
    charge_in := 1
    charge_out := 1
    overflow := 0
    overflow_price := 0
    soc_in := 11
    soc_out := 11
    status := .Waiting }

def s3_use_block : Block :=
  { block_type := .Use
    start_time := 0
    end_time := 0
    start_hour := 0
    end_hour := 0
    size := 1
    tariffs := none
    charge_tariff_in := 0
    charge_tariff_out := 0
    price := 0
    charge_in := 1
    charge_out := 1
    overflow := 0
    overflow_price := 0
    soc_in := 11
    soc_out := 11
    status := .Waiting }

def s3_use_result : Blocks :=
  { schedule_id := 7
    blocks := [s3_hold_block, s3_use_block]
    next_start := 1
    next_charge_in := 1
    next_charge_tariff_in := 0
    next_soc_in := 11
    total_price := 0 }

/-- Predicate `TilesFrom l a b`: the blocks of `l` cover exactly the hour range `[a, b)` back to
back, each block starting where the previous one ended. -/
def TilesFrom : List Block → ℕ → ℕ → Prop
  | [], a, b => a = b
  | blk :: rest, a, b => blk.start_hour = a ∧ TilesFrom rest (a + blk.size) b

/-- Every block of the list has a positive size. -/
def AllPos (l : List Block) : Prop := ∀ b ∈ l, 0 < b.size

/-- A well-formed search result: its blocks tile `[0, len)` exactly and none is empty. -/
def BlocksWF (len : ℕ) (bl : Blocks) : Prop :=
  TilesFrom bl.blocks 0 bl.next_start ∧ bl.next_start = len ∧ AllPos bl.blocks

/-- All present entries of the record are well formed. -/
def RecordWF (len : ℕ) (r : SeekRecord) : Prop :=
  BlocksWF len r.level0 ∧ (∀ bl, r.level1 = some bl → BlocksWF len bl) ∧
    (∀ bl, r.level2 = some bl → BlocksWF len bl)

/-- Default block used with `List.getD` when indexing schedules. -/
def dummy_block : Block :=
  { block_type := .Hold
    start_time := 0
    end_time := 0
    start_hour := 0
    end_hour := 0
    size := 0
    tariffs := none
    charge_tariff_in := 0
    charge_tariff_out := 0
    price := 0
    charge_in := 0
    charge_out := 0
    overflow := 0
    overflow_price := 0
    soc_in := 10
    soc_out := 10
    status := .Waiting }

theorem pv_step_right_equal (l m : Comp) : pv_step l .Equal m = (.NA, entryMem l m) := by
  revert l m ; decide

theorem pv_step_emit_mem_free (l r m m' : Comp) (h : l ≠ .Equal) :
    (pv_step l r m).1 = (pv_step l r m').1 := by
  revert l r m m' ; decide

theorem pv_step_mem_pass (l r m : Comp) (hl : l ≠ .Equal) (hr : r ≠ .Equal) :
    (pv_step l r m).2 = m := by
  revert l r m ; decide

theorem cmpN_eq_equal_iff (a b : ℕ) : cmpN a b = .Equal ↔ a = b := by
  unfold cmpN
  split <;> rename_i h
  · simp ; omega
  · split <;> rename_i h'
    · simp ; omega
    · simp ; omega

theorem cmpN_ne_NA (a b : ℕ) : cmpN a b ≠ .NA := by
  unfold cmpN ; split <;> simp ; split <;> simp

theorem cmpN_ne_End (a b : ℕ) : cmpN a b ≠ .End := by
  unfold cmpN ; split <;> simp ; split <;> simp

theorem pvRun_mem_irrel (post : List ℕ) :
    ∀ leftc v m1 m2, leftc ≠ .Equal → leftc ≠ .NA →
      pvRun m1 leftc v post = pvRun m2 leftc v post := by
  induction post with
  | nil =>
      intro leftc v m1 m2 h1 h2
      simp only [pvRun]
      rw [pv_step_emit_mem_free leftc .End m1 m2 h1]
  | cons w rest ih =>
      intro leftc v m1 m2 h1 h2
      simp only [pvRun]
      by_cases hr : cmpN v w = .Equal
      · have hm : (pv_step leftc (cmpN v w) m1).2 = (pv_step leftc (cmpN v w) m2).2 := by
          rw [hr, pv_step_right_equal, pv_step_right_equal]
          cases leftc <;> simp [entryMem] at h1 h2 ⊢
        rw [pv_step_emit_mem_free leftc (cmpN v w) m1 m2 h1, hm]
      · have hm1 : (pv_step leftc (cmpN v w) m1).2 = m1 := pv_step_mem_pass _ _ _ h1 hr
        have hm2 : (pv_step leftc (cmpN v w) m2).2 = m2 := pv_step_mem_pass _ _ _ h1 hr
        rw [pv_step_emit_mem_free leftc (cmpN v w) m1 m2 h1, hm1, hm2]
        have hvw : v ≠ w := fun h => hr (by rw [h, cmpN_eq_equal_iff])
        have : cmpN w v ≠ .Equal := fun h => hvw ((cmpN_eq_equal_iff w v).1 h).symm
        rw [ih (cmpN w v) w m1 m2 this (cmpN_ne_NA w v)]

theorem cmpN_larger_iff (a b : ℕ) : cmpN a b = .Larger ↔ b < a := by
  unfold cmpN ; split <;> rename_i h₁
  · simp [h₁]
  · split <;> simp <;> omega

theorem cmpN_smaller_iff (a b : ℕ) : cmpN a b = .Smaller ↔ a < b := by
  unfold cmpN ; split <;> rename_i h₁
  · simp ; omega
  · split <;> simp <;> omega

theorem pvRun_plateau_entry (post : List ℕ) (x : ℕ) (leftc mem : Comp) (h : leftc ≠ .NA) :
    pvRun (entryMem leftc mem) .Equal x post = pvRun mem leftc x post := by
  cases post with
  | nil => cases leftc <;> first | exact absurd rfl h | rfl
  | cons w rest =>
      simp only [pvRun]
      rcases hc : cmpN x w with _ | _ | _ | _ | _
      · exact absurd hc (cmpN_ne_End x w)
      · -- x > w, so the next left comparison is Smaller
        have hne : cmpN w x ≠ .Equal := by
          rw [(cmpN_smaller_iff w x).2 ((cmpN_larger_iff x w).1 hc)] ; simp
        have hna : cmpN w x ≠ .NA := cmpN_ne_NA w x
        cases leftc <;> first
          | exact absurd rfl h
          | rfl
          | exact congrArg₂ (· ++ ·) rfl (pvRun_mem_irrel rest (cmpN w x) w _ _ hne hna)
      · have hne : cmpN w x ≠ .Equal := by
          rw [(cmpN_larger_iff w x).2 ((cmpN_smaller_iff x w).1 hc)] ; simp
        have hna : cmpN w x ≠ .NA := cmpN_ne_NA w x
        cases leftc <;> first
          | exact absurd rfl h
          | rfl
          | exact congrArg₂ (· ++ ·) rfl (pvRun_mem_irrel rest (cmpN w x) w _ _ hne hna)
      · cases leftc <;> first | exact absurd rfl h | rfl
      · exact absurd hc (cmpN_ne_NA x w)

theorem pvRun_dup (post : List ℕ) (x : ℕ) (leftc mem : Comp) (h : leftc ≠ .NA) :
    pvRun mem leftc x (x :: post) = pvRun mem leftc x post := by
  have hxx : cmpN x x = .Equal := by simp [cmpN]
  conv_lhs => simp only [pvRun]
  rw [hxx, pv_step_right_equal]
  show pv_emit ValueType.NA x ++ pvRun (entryMem leftc mem) .Equal x post = _
  rw [show pv_emit ValueType.NA x = [] from rfl, List.nil_append]
  exact pvRun_plateau_entry post x leftc mem h

theorem pvRun_dup_mid (x : ℕ) (post : List ℕ) (pre : List ℕ) :
    ∀ mem leftc v, pvRun mem leftc v (pre ++ x :: x :: post) = pvRun mem leftc v (pre ++ x :: post) := by
  induction pre with
  | nil =>
      intro mem leftc v
      simp only [List.nil_append, pvRun]
      exact congrArg _ (pvRun_dup post x (cmpN x v) _ (cmpN_ne_NA x v))
  | cons p pre' ih =>
      intro mem leftc v
      simp only [List.cons_append, pvRun]
      exact congrArg _ (ih _ _ _)

theorem peaksValleys_dup (pre : List ℕ) (x : ℕ) (post : List ℕ) :
    peaksValleys (pre ++ x :: x :: post) = peaksValleys (pre ++ x :: post) := by
  cases pre with
  | nil =>
      simp only [List.nil_append, peaksValleys]
      exact pvRun_dup post x .End .NA (by simp)
  | cons p pre' =>
      simp only [List.cons_append, peaksValleys]
      exact pvRun_dup_mid x post pre' .NA .End p

theorem pvRun_collapseFrom (l : List ℕ) :
    ∀ v mem leftc, leftc ≠ .NA →
      pvRun mem leftc v (collapseFrom v l) = pvRun mem leftc v l := by
  induction l with
  | nil => intro v mem leftc _ ; rfl
  | cons a rest ih =>
      intro v mem leftc h
      by_cases hav : a = v
      · rw [show collapseFrom v (a :: rest) = collapseFrom v rest by
              simp [collapseFrom, hav]]
        rw [ih v mem leftc h]
        subst hav
        exact (pvRun_dup rest a leftc mem h).symm
      · rw [show collapseFrom v (a :: rest) = a :: collapseFrom a rest by
              simp [collapseFrom, hav]]
        simp only [pvRun]
        exact congrArg _ (ih a _ (cmpN a v) (cmpN_ne_NA a v))

theorem peaksValleys_collapseAll (l : List ℕ) :
    peaksValleys (collapseAll l) = peaksValleys l := by
  cases l with
  | nil => rfl
  | cons v rest =>
      simp only [collapseAll, peaksValleys]
      exact pvRun_collapseFrom rest v .NA .End (by simp)

theorem collapseFrom_subset (l : List ℕ) :
    ∀ v a, a ∈ collapseFrom v l → a ∈ l := by
  induction l with
  | nil => intro v a h ; exact absurd h (by simp [collapseFrom])
  | cons b rest ih =>
      intro v a h
      by_cases hbv : b = v
      · simp only [collapseFrom, if_pos hbv] at h
        exact List.mem_cons_of_mem b (ih v a h)
      · simp only [collapseFrom, if_neg hbv] at h
        rcases List.mem_cons.1 h with h' | h'
        · exact h' ▸ List.mem_cons_self b rest
        · exact List.mem_cons_of_mem b (ih b a h')

theorem mem_collapseFrom (l : List ℕ) :
    ∀ v a, a ∈ l → a = v ∨ a ∈ collapseFrom v l := by
  induction l with
  | nil => intro v a h ; exact absurd h (by simp)
  | cons b rest ih =>
      intro v a h
      by_cases hbv : b = v
      · simp only [collapseFrom, if_pos hbv]
        rcases List.mem_cons.1 h with h' | h'
        · exact Or.inl (h' ▸ hbv)
        · exact ih v a h'
      · simp only [collapseFrom, if_neg hbv]
        rcases List.mem_cons.1 h with h' | h'
        · exact Or.inr (h' ▸ List.mem_cons_self b _)
        · rcases ih b a h' with h'' | h''
          · exact Or.inr (h'' ▸ List.mem_cons_self b _)
          · exact Or.inr (List.mem_cons_of_mem b h'')

theorem collapseFrom_chain (l : List ℕ) :
    ∀ v, List.Chain' (· ≠ ·) (v :: collapseFrom v l) := by
  induction l with
  | nil => intro v ; simp [collapseFrom]
  | cons b rest ih =>
      intro v
      by_cases hbv : b = v
      · simp only [collapseFrom, if_pos hbv] ; exact ih v
      · simp only [collapseFrom, if_neg hbv]
        exact List.Chain'.cons (fun h => hbv h.symm) (ih b)

theorem collapseFrom_nil_all_eq (l : List ℕ) :
    ∀ v, collapseFrom v l = [] → ∀ a ∈ l, a = v := by
  induction l with
  | nil => intro v _ a ha ; exact absurd ha (by simp)
  | cons b rest ih =>
      intro v h a ha
      by_cases hbv : b = v
      · simp only [collapseFrom, if_pos hbv] at h
        rcases List.mem_cons.1 ha with h' | h'
        · exact h' ▸ hbv
        · exact ih v h a h'
      · simp only [collapseFrom, if_neg hbv] at h
        exact absurd h (by simp)

theorem pvRun_min_flag (l : List ℕ) :
    ∀ v m mem leftc,
      List.Chain' (· ≠ ·) (v :: l) →
      (m = v ∨ m ∈ l) →
      m ≤ v → (∀ y ∈ l, m ≤ y) →
      (leftc = .Larger ∨ leftc = .Smaller ∨ (leftc = .End ∧ l ≠ [])) →
      (leftc = .Larger → m ≠ v) →
      ∃ u ∈ pvRun mem leftc v l, u.value = m := by
  induction l with
  | nil =>
      intro v m mem leftc _ hm hmv _ hlc hLne
      have hm' : m = v := by simpa using hm
      rcases hlc with h | h | h
      · exact absurd hm' (hLne h)
      · subst h
        exact ⟨⟨.Valley, v⟩, by simp [pvRun, pv_step, pv_emit], hm'.symm⟩
      · exact absurd h.2 (by simp)
  | cons w rest ih =>
      intro v m mem leftc hchain hm hmv hml hlc hLne
      have hvw : v ≠ w := (List.chain'_cons.1 hchain).1
      have hchain' : List.Chain' (· ≠ ·) (w :: rest) := (List.chain'_cons.1 hchain).2
      have hmw : m ≤ w := hml w (List.mem_cons_self w rest)
      simp only [pvRun]
      by_cases hmveq : m = v
      · -- the current sample is the minimum: v < w, emitted as a Valley (or head Valley)
        have hvltw : v < w := lt_of_le_of_ne (hmveq ▸ hmw) hvw
        have hcvw : cmpN v w = .Smaller := (cmpN_smaller_iff v w).2 hvltw
        rw [hcvw]
        have hlcne : leftc ≠ .Larger := fun h => (hLne h) hmveq
        rcases hlc with h | h | h
        · exact absurd h hlcne
        · subst h
          exact ⟨⟨.Valley, v⟩, by simp [pv_step, pv_emit], hmveq.symm⟩
        · rw [h.1]
          exact ⟨⟨.Valley, v⟩, by simp [pv_step, pv_emit], hmveq.symm⟩
      · -- the minimum lies strictly later: recurse on the tail
        have hm' : m = w ∨ m ∈ rest := by
          rcases hm with h | h
          · exact absurd h hmveq
          · exact List.mem_cons.1 h
        have hml' : ∀ y ∈ rest, m ≤ y := fun y hy => hml y (List.mem_cons_of_mem w hy)
        have hlc' : cmpN w v = .Larger ∨ cmpN w v = .Smaller ∨ (cmpN w v = .End ∧ rest ≠ []) := by
          rcases Nat.lt_or_ge v w with h | h
          · exact Or.inl ((cmpN_larger_iff w v).2 h)
          · exact Or.inr (Or.inl ((cmpN_smaller_iff w v).2 (lt_of_le_of_ne h (fun e => hvw e.symm))))
        have hLne' : cmpN w v = .Larger → m ≠ w := by
          intro h hmw'
          have hvltw : v < w := (cmpN_larger_iff w v).1 h
          have : m < m := by
            subst hmw'
            exact lt_of_le_of_lt hmv hvltw
          exact absurd this (lt_irrefl m)
        obtain ⟨u, hu, huv⟩ :=
          ih w m (pv_step leftc (cmpN v w) mem).2 (cmpN w v) hchain' hm' hmw hml' hlc' hLne'
        exact ⟨u, List.mem_append_right _ hu, huv⟩

theorem list_exists_min (l : List ℕ) (h : l ≠ []) :
    ∃ m ∈ l, ∀ y ∈ l, m ≤ y := by
  induction l with
  | nil => exact absurd rfl h
  | cons a rest ih =>
      cases rest with
      | nil => exact ⟨a, by simp⟩
      | cons b r =>
          obtain ⟨m, hm, hmin⟩ := ih (by simp)
          by_cases hma : m ≤ a
          · exact ⟨m, List.mem_cons_of_mem a hm, by
              intro y hy
              rcases List.mem_cons.1 hy with h' | h'
              · exact h' ▸ hma
              · exact hmin y h'⟩
          · exact ⟨a, List.mem_cons_self a _, by
              intro y hy
              rcases List.mem_cons.1 hy with h' | h'
              · exact h' ▸ le_refl a
              · exact le_trans (le_of_not_le hma) (hmin y h')⟩

/-- C3 (amended): for every SoC history containing two distinct samples and containing a sample at
or below 10, and for every incoming tariff, `update_stored_charge_cost` returns 0.  The not-
all-equal hypothesis is needed: a history whose samples are all equal yields no peaks or
valleys, so the reset never fires (see the counterexample). -/
theorem c3_reset_below_ten (h : List ℕ) (t : ℚ)
    (hne : ∃ a ∈ h, ∃ b ∈ h, a ≠ b) (hlow : ∃ s ∈ h, s ≤ 10) :
    update_stored_charge_cost h t = 0 := by
  obtain ⟨s, hs, hs10⟩ := hlow
  have hnil : h ≠ [] := by intro e ; subst e ; simp at hs
  obtain ⟨m, hmmem, hmmin⟩ := list_exists_min h hnil
  have hm10 : m ≤ 10 := le_trans (hmmin s hs) hs10
  cases h with
  | nil => simp at hs
  | cons v rest =>
      have hclne : collapseFrom v rest ≠ [] := by
        intro e
        obtain ⟨a, ha, b, hb, hab⟩ := hne
        have hav : ∀ x ∈ (v :: rest), x = v := by
          intro x hx
          rcases List.mem_cons.1 hx with h' | h'
          · exact h'
          · exact collapseFrom_nil_all_eq rest v e x h'
        exact hab ((hav a ha).trans (hav b hb).symm)
      have hmc : m = v ∨ m ∈ collapseFrom v rest := by
        rcases List.mem_cons.1 hmmem with h' | h'
        · exact Or.inl h'
        · exact mem_collapseFrom rest v m h'
      have hmlec : ∀ y ∈ collapseFrom v rest, m ≤ y := fun y hy =>
        hmmin y (List.mem_cons_of_mem v (collapseFrom_subset rest v y hy))
      have hmlev : m ≤ v := hmmin v (List.mem_cons_self v rest)
      obtain ⟨u, hu, huval⟩ := pvRun_min_flag (collapseFrom v rest) v m .NA .End
        (collapseFrom_chain rest v) hmc hmlev hmlec (Or.inr (Or.inr ⟨rfl, hclne⟩)) (by simp)
      have hpv : u ∈ peaksValleys (v :: rest) := by
        rw [← peaksValleys_collapseAll (v :: rest)]
        simpa [collapseAll, peaksValleys] using hu
      unfold update_stored_charge_cost
      rw [if_pos]
      exact List.any_eq_true.2 ⟨u, hpv, by rw [huval] ; exact decide_eq_true hm10⟩

/-- C3 counterexample: on the single-sample history `[5]` no peak or valley is emitted (the scan
needs a neighbour comparison), so `update_stored_charge_cost` returns the tariff unchanged (1,
not 0) although the history contains a sample at or below 10. -/
theorem c3_counterexample :
    ¬ (∀ (h : List ℕ) (t : ℚ), h ≠ [] → (∃ s ∈ h, s ≤ 10) →
        update_stored_charge_cost h t = 0) := by
  intro H
  have := H [5] 1 (by simp) ⟨5, by simp, by norm_num⟩
  exact absurd this (by with_unfolding_all decide)

/-- C3 witness: the reset theorem applied to the concrete history `[80, 60, 40, 10, 15, 25, 40]`
with tariff 1. -/
theorem c3_reset_below_ten_witness : update_stored_charge_cost [80, 60, 40, 10, 15, 25, 40] 1 = 0 :=
  c3_reset_below_ten _ 1 ⟨80, by simp, 60, by simp, by simp⟩ ⟨10, by simp, by simp⟩

/-- C4 counterexample: on SoC history `[50, 70, 60, 80]` with tariff 1 the result is not `60/70 * 1
* 60/80 = 9/14` as the claim states. -/
theorem c4_counterexample :
    update_stored_charge_cost [50, 70, 60, 80] 1 ≠ 60 / 70 * 1 * (60 / 80) := by
  with_unfolding_all decide

/-- C4 (amended): the dilution loop scales the tariff by the ratio of the preceding recorded
extremum to each peak, so on `[50, 70, 60, 80]` with tariff 1 the result is `50/70 * 1 * 60/80
= 15/28`: the first factor uses the first valley 50, not 60. -/
theorem c4_dilution :
    update_stored_charge_cost [50, 70, 60, 80] 1 = 50 / 70 * 1 * (60 / 80) := by
  with_unfolding_all decide

/-- C8: inserting an extra copy of any sample immediately next to itself, at any position of any
SoC history, leaves `update_stored_charge_cost` unchanged for every incoming tariff: the
peak/valley traversal is invariant under adjacent duplicate samples. -/
theorem c8_duplicate_invariance (pre : List ℕ) (x : ℕ) (post : List ℕ) (t : ℚ) :
    update_stored_charge_cost (pre ++ x :: x :: post) t
      = update_stored_charge_cost (pre ++ x :: post) t := by
  unfold update_stored_charge_cost
  rw [peaksValleys_dup]

/-- C5 counterexample: at `soc = 100` and `max_min_soc = 50` the claimed surplus-splitting formula
`max_min_soc + (soc - max_min_soc) / 2` would program min-SoC 75, but `set_hold` programs 50:
the code takes the plain minimum. -/
theorem c5_counterexample :
    ¬ (∀ (soc max_min_soc : ℕ), set_hold false soc max_min_soc =
        (.Started, [.disable_charge_schedule,
          .set_min_soc_on_grid
            (min (max (if max_min_soc < soc then max_min_soc + (soc - max_min_soc) / 2
                       else soc) 10) 100),
          .set_max_soc 100])) := by
  intro H
  exact absurd (H 100 50) (by decide)

/-- C5 (amended): for every observed `soc` and block `max_min_soc`, `set_hold` outside debug gating
disables the charge program, sets min-SoC-on-grid to `min(soc, max_min_soc)` clamped into `[10,
100]`, and sets max-SoC to 100; no surplus splitting takes place. -/
theorem c5_hold_min_soc (soc max_min_soc : ℕ) :
    set_hold false soc max_min_soc =
      (.Started, [.disable_charge_schedule,
        .set_min_soc_on_grid (min (max (min soc max_min_soc) 10) 100), .set_max_soc 100]) := by
  rw [Nat.min_comm soc max_min_soc]
  rfl

/-- C6 counterexample: with debug gating active `set_charge` returns Started unconditionally, while
in normal mode the same call on `example_block` at SoC 90 returns Full: the status is not the
same as in normal mode. -/
theorem c6_counterexample :
    (set_charge true 90 example_block).1 ≠ (set_charge false 90 example_block).1 := by
  decide

/-- C6 (amended): under debug/manual gating no inverter call is issued by `set_charge`, `set_hold`,
`set_use` or `set_full_if_done`, and `set_hold`, `set_use` and `set_full_if_done` return the
same status as in normal mode; `set_charge` however always returns Started under gating, even
when the normal path would detect the battery as already full (see the counterexample). -/
theorem c6_supervisor_calls :
    (∀ soc b, (set_charge true soc b).2 = [] ∧ (set_charge true soc b).1 = .Started) ∧
    (∀ soc mms, (set_hold true soc mms).2 = [] ∧
      (set_hold true soc mms).1 = (set_hold false soc mms).1) ∧
    ((set_use true).2 = [] ∧ (set_use true).1 = (set_use false).1) ∧
    (∀ soc ms, (set_full_if_done true soc ms).2 = [] ∧
      (set_full_if_done true soc ms).1 = (set_full_if_done false soc ms).1) := by
  refine ⟨fun soc b => ⟨rfl, rfl⟩, fun soc mms => ⟨rfl, rfl⟩, ⟨rfl, rfl⟩, fun soc ms => ?_⟩
  unfold set_full_if_done
  by_cases h : ms ≤ soc <;> simp [h]

/-- C10: `is_update_time` returns true exactly when there is no active block, or the hour-truncated
time lies outside the active block's time bounds, or the active block is not a started Charge
block and is at least 4 hours old; a started Charge block containing the current time
suppresses replanning for its whole duration. -/
theorem c10_is_update_time (ob : Option Block) (t : ℤ) :
    is_update_time ob t = true ↔
      (ob = none ∨ ∃ b, ob = some b ∧
        (b.is_active t = false ∨ (b.is_charge = false ∧ 4 ≤ b.get_age t))) := by
  cases ob with
  | none => simp [is_update_time]
  | some b =>
      by_cases ha : b.is_active t
      · by_cases hc : b.is_charge
        · simp [is_update_time, ha, hc]
        · by_cases hage : 4 ≤ b.get_age t
          · simp [is_update_time, ha, hc, hage]
          · simp [is_update_time, ha, hc, hage]
      · have ha' : b.is_active t = false := by simpa using ha
        simp [is_update_time, ha']

/-- C7 counterexample: when the price service answers HTTP 204 for the requested day, `get_tariffs`
returns the error `NoContent`, not an empty result. -/
theorem c7_counterexample :
    get_tariffs .noContent .noContent = .error .NoContent := rfl

/-- C7 (amended): whenever `get_tariffs` succeeds it returns exactly 24 entries per parsed day (24
when only the requested day parsed, 48 when the following day parsed too); an HTTP 204 on the
requested day yields the error `NoContent` rather than an empty list. -/
theorem c7_tariff_lengths :
    (∀ r1 r2 l, get_tariffs r1 r2 = .ok l → l.length = 24 ∨ l.length = 48) ∧
    (∀ r2, get_tariffs .noContent r2 = .error .NoContent) := by
  constructor
  · intro r1 r2 l h
    have day_len : ∀ r l', get_day_tariffs r = .ok l' → l'.length = 24 := by
      intro r l' h'
      cases r with
      | noContent => exact absurd h' (by simp [get_day_tariffs])
      | body entries =>
          simp only [get_day_tariffs, tariffs_to_vec] at h'
          by_cases he : entries.length = 24
          · rw [if_neg (by simpa using he)] at h'
            cases h'
            simpa using he
          · rw [if_pos (by simpa using he)] at h'
            exact absurd h' (by simp)
    unfold get_tariffs at h
    rcases h1 : get_day_tariffs r1 with e | res
    all_goals rw [h1] at h
    · exact absurd h (by simp)
    · rcases h2 : get_day_tariffs r2 with e2 | next
      all_goals rw [h2] at h
      · simp only [Except.ok.injEq] at h
        subst h
        exact Or.inl (day_len r1 res h1)
      · simp only [Except.ok.injEq] at h
        subst h
        exact Or.inr (by
          simp only [List.length_append, day_len r1 res h1, day_len r2 next h2])
  · intro r2
    rfl

/-- C7 witness: the length theorem applied to a concrete 24-entry response for the requested day
and a 204 answer for the following day. -/
theorem c7_tariff_lengths_witness :
    ((List.replicate 24 (⟨0, 0⟩ : MultiAreaEntry)).map
        (fun t => add_vat_markup t.se4 t.delivery_start)).length = 24 ∨
    ((List.replicate 24 (⟨0, 0⟩ : MultiAreaEntry)).map
        (fun t => add_vat_markup t.se4 t.delivery_start)).length = 48 :=
  c7_tariff_lengths.1 (.body (List.replicate 24 ⟨0, 0⟩)) .noContent _ (by with_unfolding_all rfl)

/-- C9 counterexample: the claim's preconditions (observed `soc` at least 10 and `start_hour` at
least the tariff offset) do not make `update_block` total on a Charge block with `Full soc`: on
`c9_block`, whose recorded `soc_in` is 5, the subtraction `soc_in - 10` underflows although
both preconditions hold. -/
theorem c9_counterexample :
    ¬ (∀ (s : Schedule) (b : Block) (soc : ℕ), b.block_type = .Charge →
        10 ≤ soc → (∀ tf, b.tariffs = some tf → tf.offset ≤ b.start_hour) →
        (s.update_block b (.Full soc)).isSome) := by
  intro H
  have := H c9_schedule c9_block 12 rfl (by norm_num)
    (fun tf htf => by cases htf ; decide)
  rw [show c9_schedule.update_block c9_block (.Full 12) = none from by
        with_unfolding_all rfl] at this
  simp at this

/-- C9 (amended): `update_block` on a Charge block with `Full soc` is total when the observed `soc`
and the block's recorded `soc_in` are both at least 10, the block carries tariffs whose offset
is at most `start_hour`, and the offset-adjusted start lies within the tariff horizon; under
these preconditions no checked subtraction underflows. -/
theorem c9_update_block_total (s : Schedule) (b : Block) (soc : ℕ) (tf : Tariffs)
    (hbt : b.block_type = .Charge)
    (hsoc : 10 ≤ soc) (hsi : 10 ≤ b.soc_in)
    (htf : b.tariffs = some tf) (hoff : tf.offset ≤ b.start_hour)
    (hlen : b.start_hour - tf.offset ≤ tf.length) :
    (s.update_block b (.Full soc)).isSome := by
  unfold Schedule.update_block
  rw [hbt]
  by_cases h : b.soc_in < soc <;>
    simp [h, htf, checkedSub, hoff, hsi, hsoc]

theorem use_scan_shape (s : Schedule) (sid u_start : ℕ) (np : ℕ → ℚ) (hold : Block)
    (hco hcto : ℚ) :
    ∀ fuel u_end st bl, s.use_scan sid u_start np hold hco hcto fuel u_end st = some bl →
      ∃ u_e c t o op, bl = s.get_use_blocks sid u_start u_e c t o op hold np := by
  intro fuel
  induction fuel with
  | zero =>
      intro u_end st bl h
      exact absurd h (by simp [Schedule.use_scan])
  | succ n ih =>
      intro u_end st bl h
      rw [Schedule.use_scan] at h
      by_cases h1 : s.tariffs.length - 1 < u_end ∨ s.tariffs.buy u_end ≤ st.2.1
      · rw [if_pos h1] at h
        by_cases h2 : u_end ≠ u_start
        · rw [if_pos h2] at h
          cases h
          exact ⟨u_end, st.1, st.2.1, st.2.2.1, st.2.2.2, rfl⟩
        · rw [if_neg h2] at h
          exact absurd h (by simp)
      · rw [if_neg h1] at h
        by_cases h3 : rustRound (s.update_for_pv .Use u_start (u_end + 1) np hco hcto).1 = 0
        · rw [if_pos h3] at h
          by_cases h2 : u_end ≠ u_start
          · rw [if_pos h2] at h
            cases h
            exact ⟨u_end + 1, _, _, _, _, rfl⟩
          · rw [if_neg h2] at h
            exact absurd h (by simp)
        · rw [if_neg h3] at h
          exact ih (u_end + 1) _ bl h

theorem use_scan_entry (s : Schedule) (sid u_start : ℕ) (np : ℕ → ℚ) (hold : Block)
    (hco hcto : ℚ) (fuel : ℕ) (st : ℚ × ℚ × ℚ × ℚ) (bl : Blocks)
    (h : s.use_scan sid u_start np hold hco hcto fuel u_start st = some bl) :
    ¬ (s.tariffs.length - 1 < u_start ∨ s.tariffs.buy u_start ≤ st.2.1) := by
  intro hcond
  cases fuel with
  | zero => exact absurd h (by simp [Schedule.use_scan])
  | succ n =>
      rw [Schedule.use_scan, if_pos hcond, if_neg (by simp)] at h
      exact absurd h (by simp)

theorem seek_use_starts_prop (s : Schedule) (sid init : ℕ) (np : ℕ → ℚ) (ci cti : ℚ) :
    ∀ lst bl, s.seek_use_starts sid init np ci cti lst = some bl →
      ∃ hold usage, bl.blocks = [hold, usage] ∧ usage.block_type = .Use ∧
        usage.charge_tariff_in = hold.charge_tariff_out ∧
        usage.charge_tariff_in < s.tariffs.buy usage.start_hour := by
  intro lst
  induction lst with
  | nil => intro bl h ; exact absurd h (by simp [Schedule.seek_use_starts])
  | cons u rest ih =>
      intro bl h
      rw [Schedule.seek_use_starts] at h
      split at h
      · rename_i bl' hscan
        cases h
        obtain ⟨u_e, c, t, o, op, hbl⟩ := use_scan_shape s sid u np _ _ _ _ _ _ _ hscan
        have hent := use_scan_entry s sid u np _ _ _ _ _ _ hscan
        subst hbl
        refine ⟨_, _, rfl, rfl, rfl, ?_⟩
        push_neg at hent
        exact hent.2
      · exact ih bl h

/-- C2 (amended): every Use block found by `seek_use` starts at an hour whose buy price strictly
exceeds the block's incoming charge tariff (the preceding hold block's `charge_tariff_out`);
neither the mean-tariff bound nor the absolute floor of the original claim is checked by the
code. -/
theorem c2_use_first_hour (s : Schedule) (sid init seek : ℕ) (np : ℕ → ℚ) (ci cti : ℚ)
    (bl : Blocks) (h : s.seek_use sid init seek np ci cti = some bl) :
    ∃ hold usage, bl.blocks = [hold, usage] ∧ usage.block_type = .Use ∧
      usage.charge_tariff_in = hold.charge_tariff_out ∧
      usage.charge_tariff_in < s.tariffs.buy usage.start_hour :=
  seek_use_starts_prop s sid init np ci cti _ bl h

set_option maxRecDepth 100000 in
theorem s2_seek_best_eval : (s2.seek_best (fun _ => 0) 0 0).blocks = [s2_base_block] := by
  with_unfolding_all rfl

/-- C2 counterexample: the base all-Use block of the trivial schedule `s2` is scheduled although
its mean buy tariff (0) neither strictly exceeds `charge_tariff_out / charge_efficiency` nor
meets the claimed 0.5 floor; no absolute floor exists in the code. -/
theorem c2_counterexample :
    ¬ (∀ (s : Schedule) (np : ℕ → ℚ) (ci cti : ℚ), ∀ b ∈ (s.seek_best np ci cti).blocks,
        b.block_type = .Use →
          b.charge_tariff_out / s.charge_efficiency < s.mean_buy_tariff b ∧
          (1 : ℚ) / 2 ≤ s.mean_buy_tariff b) := by
  intro H
  have hmem : s2_base_block ∈ (s2.seek_best (fun _ => 0) 0 0).blocks := by
    rw [s2_seek_best_eval] ; simp
  have := H s2 (fun _ => 0) 0 0 s2_base_block hmem rfl
  exact absurd this.2 (by with_unfolding_all decide)

/-- C2 witness: the amended Use-block property evaluated on the concrete schedule `s3`, whose
`seek_use` at hour 0 returns `s3_use_result`. -/
theorem c2_use_first_hour_witness :
    ∃ hold usage, s3_use_result.blocks = [hold, usage] ∧ usage.block_type = .Use ∧
      usage.charge_tariff_in = hold.charge_tariff_out ∧
      usage.charge_tariff_in < s3.tariffs.buy usage.start_hour :=
  c2_use_first_hour s3 7 0 0 (fun _ => 0) 1 0 s3_use_result (by with_unfolding_all rfl)

theorem tilesFrom_append {l1 l2 : List Block} {a b c : ℕ}
    (h1 : TilesFrom l1 a b) (h2 : TilesFrom l2 b c) : TilesFrom (l1 ++ l2) a c := by
  induction l1 generalizing a with
  | nil =>
      have hab : a = b := h1
      subst hab
      exact h2
  | cons blk rest ih =>
      obtain ⟨hs, ht⟩ := h1
      exact ⟨hs, ih ht⟩

theorem tilesFrom_filter_pos {l : List Block} {a b : ℕ} (h : TilesFrom l a b) :
    TilesFrom (l.filter (fun blk => decide (0 < blk.size))) a b := by
  induction l generalizing a with
  | nil => exact h
  | cons blk rest ih =>
      obtain ⟨hs, ht⟩ := h
      by_cases hp : 0 < blk.size
      · rw [List.filter_cons_of_pos (by simpa using hp)]
        exact ⟨hs, ih ht⟩
      · rw [List.filter_cons_of_neg (by simpa using hp)]
        have hz : blk.size = 0 := by omega
        rw [hz, Nat.add_zero] at ht
        exact ih ht

theorem allPos_filter (l : List Block) :
    AllPos (l.filter (fun blk => decide (0 < blk.size))) := by
  intro b hb
  have := List.of_mem_filter hb
  simpa using this

theorem foldl_preserve {α β : Type} (P : β → Prop) (f : β → α → β) (l : List α) (init : β)
    (h0 : P init) (hstep : ∀ acc a, a ∈ l → P acc → P (f acc a)) : P (l.foldl f init) := by
  induction l generalizing init with
  | nil => exact h0
  | cons a l ih =>
      exact ih (f init a) (hstep init a (List.mem_cons_self a l) h0)
        (fun acc a' ha' hacc => hstep acc a' (List.mem_cons_of_mem a ha') hacc)

theorem trim_and_tail_wf (s : Schedule) (bl : Blocks) (np : ℕ → ℚ)
    (hT : TilesFrom bl.blocks 0 bl.next_start) (hle : bl.next_start ≤ s.tariffs.length) :
    BlocksWF s.tariffs.length (s.trim_and_tail bl np) := by
  unfold Schedule.trim_and_tail
  by_cases hlt : bl.next_start < s.tariffs.length
  · rw [if_pos hlt]
    refine ⟨?_, rfl, ?_⟩
    · exact tilesFrom_append (tilesFrom_filter_pos hT)
        ⟨rfl, by simp [TilesFrom] ; omega⟩
    · intro b hb
      rcases List.mem_append.1 hb with h | h
      · exact allPos_filter bl.blocks b h
      · simp at h
        subst h
        simp
        omega
  · rw [if_neg hlt]
    have : bl.next_start = s.tariffs.length := by omega
    exact ⟨tilesFrom_filter_pos hT, this, fun b hb => allPos_filter bl.blocks b hb⟩

theorem record_best_wf (s : Schedule) (level : ℕ) (bl : Blocks) (np : ℕ → ℚ)
    (r : SeekRecord) (hr : RecordWF s.tariffs.length r)
    (hbl : TilesFrom bl.blocks 0 bl.next_start ∧ bl.next_start ≤ s.tariffs.length) :
    RecordWF s.tariffs.length (s.record_best level bl np r) := by
  obtain ⟨h0, h1, h2⟩ := hr
  have hwf : BlocksWF s.tariffs.length (s.trim_and_tail bl np) :=
    trim_and_tail_wf s bl np hbl.1 hbl.2
  unfold Schedule.record_best
  split
  · split
    · split
      · exact ⟨h0, fun b hb => by cases hb ; exact hwf, h2⟩
      · exact ⟨h0, h1, h2⟩
    · exact ⟨h0, fun b hb => by cases hb ; exact hwf, h2⟩
  · split
    · split
      · split
        · exact ⟨h0, h1, fun b hb => by cases hb ; exact hwf⟩
        · exact ⟨h0, h1, h2⟩
      · exact ⟨h0, h1, fun b hb => by cases hb ; exact hwf⟩
    · exact ⟨h0, h1, h2⟩

theorem charge_cost_end_bounds (s : Schedule) (start : ℕ) (c : ℚ)
    (h : start ≤ s.tariffs.length) :
    start ≤ (s.charge_cost_charge_end start c none).2 ∧
      (s.charge_cost_charge_end start c none).2 ≤ s.tariffs.length := by
  unfold Schedule.charge_cost_charge_end
  dsimp only [Option.getD]
  omega

theorem seek_charge_tiles (s : Schedule) (init start L : ℕ) (np : ℕ → ℚ) (ci cti : ℚ)
    (h1 : init ≤ start) (h2 : start ≤ s.tariffs.length) :
    TilesFrom (s.seek_charge init start L np ci cti).blocks init
        (s.seek_charge init start L np ci cti).next_start ∧
      (s.seek_charge init start L np ci cti).next_start ≤ s.tariffs.length := by
  have hce := charge_cost_end_bounds s start
    (((L : ℚ) * s.soc_kwh - (s.update_for_pv .Hold init start np ci cti).1) / s.charge_efficiency)
    h2
  simp only [Schedule.seek_charge, Schedule.get_charge_block]
  split
  · refine ⟨⟨rfl, ?_, ?_⟩, ?_⟩
    · show start = init + (start - init)
      omega
    · show init + (start - init) + ((s.charge_cost_charge_end start _ none).2 - start)
        = start + ((s.charge_cost_charge_end start _ none).2 - start)
      omega
    · show start + ((s.charge_cost_charge_end start _ none).2 - start) ≤ s.tariffs.length
      omega
  · refine ⟨⟨rfl, ?_, ?_⟩, ?_⟩
    · show start = init + (start - init)
      omega
    · show init + (start - init) + 0 = start + 0
      omega
    · show start + 0 ≤ s.tariffs.length
      omega

theorem use_scan_bounds (s : Schedule) (sid u_start : ℕ) (np : ℕ → ℚ) (hold : Block)
    (hco hcto : ℚ) (hlen : 1 ≤ s.tariffs.length) :
    ∀ fuel u_end st bl, u_start ≤ u_end → u_end ≤ s.tariffs.length →
      s.use_scan sid u_start np hold hco hcto fuel u_end st = some bl →
      ∃ u_e c t o op, u_start ≤ u_e ∧ u_e ≤ s.tariffs.length ∧
        bl = s.get_use_blocks sid u_start u_e c t o op hold np := by
  intro fuel
  induction fuel with
  | zero =>
      intro u_end st bl _ _ h
      exact absurd h (by simp [Schedule.use_scan])
  | succ n ih =>
      intro u_end st bl hlo hhi h
      rw [Schedule.use_scan] at h
      by_cases h1 : s.tariffs.length - 1 < u_end ∨ s.tariffs.buy u_end ≤ st.2.1
      · rw [if_pos h1] at h
        by_cases h2 : u_end ≠ u_start
        · rw [if_pos h2] at h
          cases h
          exact ⟨u_end, st.1, st.2.1, st.2.2.1, st.2.2.2, hlo, hhi, rfl⟩
        · rw [if_neg h2] at h
          exact absurd h (by simp)
      · rw [if_neg h1] at h
        push_neg at h1
        have hend : u_end + 1 ≤ s.tariffs.length := by omega
        by_cases h3 : rustRound (s.update_for_pv .Use u_start (u_end + 1) np hco hcto).1 = 0
        · rw [if_pos h3] at h
          by_cases h2 : u_end ≠ u_start
          · rw [if_pos h2] at h
            cases h
            exact ⟨u_end + 1, _, _, _, _, by omega, hend, rfl⟩
          · rw [if_neg h2] at h
            exact absurd h (by simp)
        · rw [if_neg h3] at h
          exact ih (u_end + 1) _ bl (by omega) hend h

theorem get_use_blocks_next (s : Schedule) (sid u_start u_e : ℕ) (c t o op : ℚ)
    (hold : Block) (np : ℕ → ℚ) :
    (s.get_use_blocks sid u_start u_e c t o op hold np).blocks
        = [hold, (s.get_use_blocks sid u_start u_e c t o op hold np).blocks.getD 1 hold] ∧
      ((s.get_use_blocks sid u_start u_e c t o op hold np).blocks.getD 1 hold).start_hour = u_start ∧
      ((s.get_use_blocks sid u_start u_e c t o op hold np).blocks.getD 1 hold).size = u_e - u_start ∧
      (s.get_use_blocks sid u_start u_e c t o op hold np).next_start = u_start + (u_e - u_start) := by
  exact ⟨rfl, rfl, rfl, rfl⟩

theorem seek_use_starts_tiles (s : Schedule) (sid init : ℕ) (np : ℕ → ℚ) (ci cti : ℚ)
    (hlen : 1 ≤ s.tariffs.length) :
    ∀ lst bl, (∀ u ∈ lst, init ≤ u ∧ u < s.tariffs.length) →
      s.seek_use_starts sid init np ci cti lst = some bl →
      TilesFrom bl.blocks init bl.next_start ∧ bl.next_start ≤ s.tariffs.length := by
  intro lst
  induction lst with
  | nil => intro bl _ h ; exact absurd h (by simp [Schedule.seek_use_starts])
  | cons u rest ih =>
      intro bl hmem h
      have hu := hmem u (List.mem_cons_self u rest)
      rw [Schedule.seek_use_starts] at h
      split at h
      next bl' hscan =>
        cases h
        obtain ⟨u_e, c, t, o, op, hue1, hue2, hbl⟩ :=
          use_scan_bounds s sid u np _ _ _ hlen _ u _ _ (le_refl u) (le_of_lt hu.2) hscan
        subst hbl
        refine ⟨⟨rfl, ?_, ?_⟩, ?_⟩
        · show u = init + (u - init)
          omega
        · show init + (u - init) + (u_e - u) = u + (u_e - u)
          omega
        · show u + (u_e - u) ≤ s.tariffs.length
          omega
      next hscan => exact ih bl (fun v hv => hmem v (List.mem_cons_of_mem u hv)) h

theorem seek_use_tiles (s : Schedule) (sid init seek : ℕ) (np : ℕ → ℚ) (ci cti : ℚ)
    (bl : Blocks) (hlen : 1 ≤ s.tariffs.length) (hinit : init ≤ seek)
    (h : s.seek_use sid init seek np ci cti = some bl) :
    TilesFrom bl.blocks init bl.next_start ∧ bl.next_start ≤ s.tariffs.length := by
  refine seek_use_starts_tiles s sid init np ci cti hlen _ bl ?_ h
  intro u hu
  have := List.mem_range'_1.1 hu
  omega

theorem create_base_wf (s : Schedule) (cid : ℕ) (ci cti : ℚ) (np : ℕ → ℚ)
    (hlen : 1 ≤ s.tariffs.length) :
    BlocksWF s.tariffs.length (s.create_base_blocks cid ci cti np) := by
  refine ⟨⟨rfl, ?_⟩, rfl, ?_⟩
  · show (0 + s.tariffs.length : ℕ) = s.tariffs.length
    omega
  · intro b hb
    simp only [Schedule.create_base_blocks, List.mem_singleton] at hb
    subst hb
    show 0 < s.tariffs.length
    omega

theorem second_use_fold_wf (s : Schedule) (np : ℕ → ℚ) (sid : ℕ)
    (first_combined second_charge_blocks : Blocks) (rec : SeekRecord)
    (hlen : 1 ≤ s.tariffs.length) (hrec : RecordWF s.tariffs.length rec)
    (hfc : TilesFrom first_combined.blocks 0 first_combined.next_start)
    (hsc : TilesFrom second_charge_blocks.blocks first_combined.next_start
      second_charge_blocks.next_start)
    (hscle : second_charge_blocks.next_start ≤ s.tariffs.length) :
    RecordWF s.tariffs.length (s.second_use_fold np sid first_combined second_charge_blocks rec) := by
  unfold Schedule.second_use_fold
  refine foldl_preserve (RecordWF s.tariffs.length) _ _ _ hrec ?_
  intro acc u hu hacc
  split
  next sub hseek =>
    have humem := List.mem_range'_1.1 hu
    have hub := seek_use_tiles s sid second_charge_blocks.next_start u np _ _ sub hlen
      (by omega) hseek
    refine record_best_wf s 2 _ np acc hacc ⟨?_, ?_⟩
    · exact tilesFrom_append hfc (tilesFrom_append hsc hub.1)
    · exact hub.2
  next hseek => exact hacc

theorem second_level_wf (s : Schedule) (np : ℕ → ℚ) (first_combined : Blocks)
    (st : ℕ × SeekRecord) (hlen : 1 ≤ s.tariffs.length)
    (hst : RecordWF s.tariffs.length st.2)
    (hfc : TilesFrom first_combined.blocks 0 first_combined.next_start)
    (hfcle : first_combined.next_start ≤ s.tariffs.length) :
    RecordWF s.tariffs.length (s.second_level np first_combined st).2 := by
  unfold Schedule.second_level
  refine foldl_preserve (fun st : ℕ × SeekRecord => RecordWF s.tariffs.length st.2) _ _ _ hst ?_
  intro acc ssc hssc hacc
  refine foldl_preserve (fun st : ℕ × SeekRecord => RecordWF s.tariffs.length st.2) _ _ _ hacc ?_
  intro acc2 L hL hacc2
  have hsscm := List.mem_range'_1.1 hssc
  have hsc := seek_charge_tiles s first_combined.next_start ssc L np
    first_combined.next_charge_in first_combined.next_charge_tariff_in
    (by omega) (by omega)
  exact second_use_fold_wf s np _ first_combined _ acc2.2 hlen hacc2 hfc hsc.1 hsc.2

theorem first_use_fold_wf (s : Schedule) (np : ℕ → ℚ) (first_charge_blocks : Blocks)
    (st : ℕ × SeekRecord) (hlen : 1 ≤ s.tariffs.length)
    (hst : RecordWF s.tariffs.length st.2)
    (hfc : TilesFrom first_charge_blocks.blocks 0 first_charge_blocks.next_start)
    (hfcle : first_charge_blocks.next_start ≤ s.tariffs.length) :
    RecordWF s.tariffs.length (s.first_use_fold np first_charge_blocks st).2 := by
  unfold Schedule.first_use_fold
  refine foldl_preserve (fun st : ℕ × SeekRecord => RecordWF s.tariffs.length st.2) _ _ _ hst ?_
  intro acc u hu hacc
  split
  next fu hseek =>
    have humem := List.mem_range'_1.1 hu
    have hub := seek_use_tiles s acc.1 first_charge_blocks.next_start u np _ _ fu hlen
      (by omega) hseek
    have hcomb : TilesFrom (combine_blocks first_charge_blocks fu).blocks 0
        (combine_blocks first_charge_blocks fu).next_start :=
      tilesFrom_append hfc hub.1
    refine second_level_wf s np _ _ hlen ?_ hcomb hub.2
    exact record_best_wf s 1 _ np acc.2 hacc ⟨hcomb, hub.2⟩
  next hseek => exact hacc

theorem get_best_wf (r : SeekRecord) (len : ℕ) (hr : RecordWF len r) :
    ∃ bl, BlocksWF len bl ∧ (get_best r).blocks
        = bl.blocks.map (fun b => { b with end_hour := b.start_hour + b.size - 1 }) := by
  obtain ⟨h0, h1, h2⟩ := hr
  unfold get_best
  rcases hl1 : r.level1 with _ | bl1 <;> rcases hl2 : r.level2 with _ | bl2 <;>
    simp only [hl1, hl2] <;> dsimp only <;> repeat' split
  all_goals
    first
      | exact ⟨bl2, h2 bl2 hl2, rfl⟩
      | exact ⟨bl1, h1 bl1 hl1, rfl⟩
      | exact ⟨r.level0, h0, rfl⟩

theorem seek_best_wf (s : Schedule) (np : ℕ → ℚ) (ci cti : ℚ)
    (hlen : 1 ≤ s.tariffs.length) :
    ∃ bl, BlocksWF s.tariffs.length bl ∧ (s.seek_best np ci cti).blocks
        = bl.blocks.map (fun b => { b with end_hour := b.start_hour + b.size - 1 }) := by
  unfold Schedule.seek_best
  refine get_best_wf _ _ ?_
  refine (foldl_preserve (fun st : ℕ × SeekRecord => RecordWF s.tariffs.length st.2) _ _ _
    ?_ ?_)
  · exact ⟨create_base_wf s 0 ci cti np hlen, by simp, by simp⟩
  · intro acc sfc hsfc hacc
    refine foldl_preserve (fun st : ℕ × SeekRecord => RecordWF s.tariffs.length st.2) _ _ _
      hacc ?_
    intro acc2 L hL hacc2
    have hsfcm := List.mem_range.1 hsfc
    have hfc := seek_charge_tiles s 0 sfc L np ci cti (by omega) (by omega)
    exact first_use_fold_wf s np _ _ hlen hacc2 hfc.1 hfc.2

theorem tiles_get_succ (l : List Block) :
    ∀ a e i, TilesFrom l a e → i + 1 < l.length →
      (l.getD (i + 1) dummy_block).start_hour
        = (l.getD i dummy_block).start_hour + (l.getD i dummy_block).size := by
  induction l with
  | nil => intro a e i _ h ; simp at h
  | cons b rest ih =>
      intro a e i hT hlen
      obtain ⟨hs, ht⟩ := hT
      cases i with
      | zero =>
          cases rest with
          | nil => simp at hlen
          | cons b' r' =>
              obtain ⟨hs', _⟩ := ht
              simp only [List.getD_cons_succ, List.getD_cons_zero]
              rw [hs, hs']
      | succ j =>
          simp only [List.getD_cons_succ]
          exact ih _ _ j ht (by simpa using hlen)

theorem allPos_getD (l : List Block) (h : AllPos l) (i : ℕ) (hi : i < l.length) :
    0 < (l.getD i dummy_block).size := by
  have : l.getD i dummy_block ∈ l := by
    rw [List.getD_eq_getElem l dummy_block hi]
    exact l.getElem_mem hi
  exact h _ this

theorem getD_map_block (f : Block → Block) (l : List Block) (i : ℕ) (hi : i < l.length) :
    (l.map f).getD i dummy_block = f (l.getD i dummy_block) := by
  rw [List.getD_eq_getElem l dummy_block hi,
    List.getD_eq_getElem (l.map f) dummy_block (by simpa using hi)]
  simp

/-- C1 (amended): on every schedule with a nonempty tariff horizon, the blocks returned by
`seek_best` tile the horizon without gaps or overlaps: each block's `end_hour` plus one equals
the next block's `start_hour`.  The SoC half of the original claim fails (see the
counterexample) and is dropped. -/
theorem c1_hour_tiling (s : Schedule) (np : ℕ → ℚ) (ci cti : ℚ)
    (hlen : 1 ≤ s.tariffs.length) (i : ℕ)
    (h : i + 1 < (s.seek_best np ci cti).blocks.length) :
    ((s.seek_best np ci cti).blocks.getD i dummy_block).end_hour + 1
      = ((s.seek_best np ci cti).blocks.getD (i + 1) dummy_block).start_hour := by
  obtain ⟨bl, ⟨hT, hN, hP⟩, hEq⟩ := seek_best_wf s np ci cti hlen
  rw [hEq] at h ⊢
  have hl : i + 1 < bl.blocks.length := by simpa using h
  rw [getD_map_block _ _ _ (by omega), getD_map_block _ _ _ hl]
  have hsucc := tiles_get_succ bl.blocks 0 bl.next_start i hT hl
  have hpos := allPos_getD bl.blocks hP i (by omega)
  simp only []
  omega

set_option maxRecDepth 100000 in
theorem c1_s1_eval :
    ((s1.seek_best np1 (1/2) 1).blocks.getD 0 dummy_block).soc_out = 62 ∧
    ((s1.seek_best np1 (1/2) 1).blocks.getD 1 dummy_block).soc_in = 64 ∧
    (s1.seek_best np1 (1/2) 1).blocks.length = 2 := by
  with_unfolding_all decide

/-- C1 counterexample: the claim also requires `soc_out` of block `i` to equal `soc_in` of block
`i+1`, but on schedule `s1` with net production `np1` the optimizer returns two blocks with
`soc_out` 62 followed by `soc_in` 64: a zero-size Charge block absorbed free PV charge and was
trimmed away, breaking the SoC chain. -/
theorem c1_counterexample :
    ¬ (∀ (s : Schedule) (np : ℕ → ℚ) (ci cti : ℚ), 1 ≤ s.tariffs.length →
        ∀ i, i + 1 < (s.seek_best np ci cti).blocks.length →
          ((s.seek_best np ci cti).blocks.getD i dummy_block).end_hour + 1
              = ((s.seek_best np ci cti).blocks.getD (i + 1) dummy_block).start_hour ∧
            ((s.seek_best np ci cti).blocks.getD i dummy_block).soc_out
              = ((s.seek_best np ci cti).blocks.getD (i + 1) dummy_block).soc_in) := by
  intro H
  have h := (H s1 np1 (1/2) 1 (by decide) 0 (by rw [c1_s1_eval.2.2] ; norm_num)).2
  rw [c1_s1_eval.1, c1_s1_eval.2.1] at h
  exact absurd h (by norm_num)

/-- C1 witness: the hour-tiling theorem evaluated on the concrete schedule `s1`. -/
theorem c1_hour_tiling_witness :
    ((s1.seek_best np1 (1/2) 1).blocks.getD 0 dummy_block).end_hour + 1
      = ((s1.seek_best np1 (1/2) 1).blocks.getD 1 dummy_block).start_hour :=
  c1_hour_tiling s1 np1 (1/2) 1 (by decide) 0 (by rw [c1_s1_eval.2.2] ; norm_num)

/-- C9 witness: the totality theorem applied to the concrete schedule `c9_schedule` and block
`c9_block_ok` at observed SoC 30. -/
theorem c9_update_block_total_witness :
    (c9_schedule.update_block c9_block_ok (.Full 30)).isSome :=
  c9_update_block_total c9_schedule c9_block_ok 30 c9_tariffs rfl (by decide) (by decide) rfl
    (by decide) (by decide)

end MyGrid
